import Mathlib

/-!
Verification development for the markov-text program (src/main.rs).

The embedding below translates the three core functions of the source,
`generate_markov_chain`, `generate_text` and `get_text_starter`, into
executable Lean definitions:

* Strings are Lean `String`s; tokenization and splitting are modelled at
  the character-list level (`String.data`) with structurally recursive
  splitters mirroring Rust `str::split` / `str::split_whitespace`.
  The character classes (`Char.isWhitespace`, `Char.isUpper`, `Char.isAlpha`)
  are the ASCII predicates, agreeing with the Rust Unicode predicates on
  the ASCII range that the program's heuristics target.
* The `HashMap<String, Vec<String>>` model is an association list in
  insertion order; `Model.find` is the semantic lookup (`HashMap::get`).
* Fallible paths return `Except String`, with the exact error message
  strings of the source.  A slice-index panic (`&input_vec[i]`) is
  modelled by an error value; it is unreachable in the source's loops.
* The thread-local RNG is modelled by explicit choice indices: each call
  of `choose` on a list picks index `k % len` for a caller-supplied
  natural `k` (`chooseWith`).  `get_text_starter` consumes one index,
  the generation loop consumes one per iteration (`seed i` at loop
  index `i`).  Every uniformly random run corresponds to some choice of
  indices, and `choose` on `[]` returns `none` exactly as in Rust.
-/

namespace MarkovText

/-- Splits a character list at every character satisfying `p`, keeping empty
segments (Rust `str::split` at the character level). -/
def splitChars (p : Char → Bool) : List Char → List (List Char)
  | [] => [[]]
  | c :: cs =>
    if p c then [] :: splitChars p cs
    else match splitChars p cs with
      | [] => [[c]]
      | w :: ws => (c :: w) :: ws

/-- Rust `str::split_whitespace`: split on whitespace and drop empty pieces. -/
def split_whitespace (s : String) : List String :=
  ((splitChars Char.isWhitespace s.data).filter (fun w => w ≠ [])).map String.mk

/-- Rust `starter.split(" ")`: split on the single space character, keeping
empty pieces. -/
def splitSpaceTokens (s : String) : List String :=
  (splitChars (fun c => c = ' ') s.data).map String.mk

/-- Character-level `Vec<String>::join(" ")`: the pieces interleaved with
single spaces. -/
def joinSpaceChars : List (List Char) → List Char
  | [] => []
  | l :: ls => l ++ ls.flatMap (fun x => ' ' :: x)

/-- Rust `slice::join(" ")` on a list of strings. -/
def joinSpace (ts : List String) : String :=
  ⟨joinSpaceChars (ts.map String.data)⟩

/-- The word-collection pass of `generate_markov_chain`: iterate over the
lines of the input and, per line, over its whitespace-split words
(`split_whitespace` already yields only non-empty words, making the
source's extra emptiness check redundant). -/
def collectWords (input : String) : List String :=
  ((splitChars (fun c => c = '\n') input.data).flatMap
    (fun line => (splitChars Char.isWhitespace line).filter (fun w => w ≠ []))).map String.mk

/-- The model type: `HashMap<String, Vec<String>>` as an association list in
insertion order. -/
abbrev Model := List (String × List String)

/-- `HashMap::get`: the value stored under key `k`, if any. -/
def Model.find (m : Model) (k : String) : Option (List String) :=
  match m with
  | [] => none
  | kv :: rest => if kv.1 = k then some kv.2 else Model.find rest k

/-- One lookup-then-insert-or-append step of the builder: if `k` is present,
push `v` onto its list, otherwise insert the entry `(k, [v])`. -/
def modelAppend (m : Model) (k v : String) : Model :=
  if (Model.find m k).isSome then
    m.map (fun kv => if kv.1 = k then (kv.1, kv.2 ++ [v]) else kv)
  else
    m ++ [(k, [v])]

/-- Rust `v.get(a..b)`: the slice as a list, or `none` when the range is
invalid. -/
def sliceGet (v : List α) (a b : Nat) : Option (List α) :=
  if a ≤ b ∧ b ≤ v.length then some ((v.drop a).take (b - a)) else none

def invalidStateSizeMsg : String := "State size must be greater than 0"

def insufficientDataMsg (nwords ss : Nat) : String :=
  "Input text has " ++ toString nwords ++ " words, but need at least " ++
    toString (ss + 1) ++ " words for state size " ++ toString ss

def sliceErrMsg : String := "Failed to get previous words slice"

def indexPanicMsg : String := "index out of bounds"

/-- The window loop of `generate_markov_chain`: for each index `i` of the
index list, append token `i` to the entry keyed by the space-join of the
`state_size` tokens before it.  The `none` branch of the slice models the
source's `ok_or` error; the `none` branch of `tv[i]?` models the Rust index
panic (both unreachable for the in-range index lists the builder uses). -/
def buildLoop (tv : List String) (ss : Nat) : List Nat → Model → Except String Model
  | [], m => .ok m
  | i :: is, m =>
    match sliceGet tv (i - ss) i with
    | none => .error sliceErrMsg
    | some prev =>
      match tv[i]? with
      | none => .error indexPanicMsg
      | some w => buildLoop tv ss is (modelAppend m (joinSpace prev) w)

/-- `generate_markov_chain` after word collection: validate `state_size`,
require at least `state_size + 1` tokens, then slide the window. -/
def build (tv : List String) (ss : Nat) : Except String Model :=
  if ss = 0 then .error invalidStateSizeMsg
  else if tv.length < ss + 1 then .error (insufficientDataMsg tv.length ss)
  else buildLoop tv ss (List.range' ss (tv.length - ss)) []

/-- `generate_markov_chain` of the source: tokenize the raw input, then
build the chain. -/
def generate_markov_chain (input : String) (ss : Nat) : Except String Model :=
  build (collectWords input) ss

/-- Rust `slice::choose(&mut rng)` for a draw with choice index `k`:
uniform selection modelled as indexing at `k % len`; `none` on `[]`. -/
def chooseWith (k : Nat) (l : List α) : Option α :=
  l[k % l.length]?

/-- `key.chars().next()` is an uppercase alphabetic character. -/
def firstCharUpperAlpha (s : String) : Bool :=
  match s.data with
  | [] => false
  | c :: _ => c.isUpper && c.isAlpha

/-- The second filter of `get_text_starter`: the state has at least
`state_size` whitespace words and its word at position `state_size - 1`
does not start with an uppercase alphabetic character.  (Intended for
`state_size ≥ 1`; at `state_size = 0` the Rust source underflows
`state_size - 1`, while `Nat` subtraction truncates.) -/
def lastWordNotCapital (ss : Nat) (starter : String) : Bool :=
  let words := split_whitespace starter
  if ss ≤ words.length then
    match words[ss - 1]? with
    | some w =>
      match w.data with
      | [] => false
      | c :: _ => !c.isUpper || !c.isAlpha
    | none => false
  else false

/-- `starters_all` of `get_text_starter`: the keys whose first character is
an uppercase alphabetic character, in model order. -/
def starters_all (model : Model) : List String :=
  (model.map Prod.fst).filter firstCharUpperAlpha

/-- `starters_valid` of `get_text_starter` before the fallbacks. -/
def starters_valid (model : Model) (ss : Nat) : List String :=
  (starters_all model).filter (lastWordNotCapital ss)

def emptyModelMsg : String := "Model is empty, cannot generate text"

def chooseStarterFailMsg : String := "Failed to choose a starter"

/-- The fallback chain of `get_text_starter`: the candidate list the final
random pick draws from, or the empty-model error. -/
def pickStarterList (model : Model) (ss : Nat) : Except String (List String) :=
  let sv0 := starters_valid model ss
  let sv1 := if sv0.isEmpty then starters_all model else sv0
  if sv1.isEmpty then
    match model with
    | [] => .error emptyModelMsg
    | kv :: _ => .ok [kv.1]
  else .ok sv1

/-- `get_text_starter`: build the candidate list through the fallback chain,
then pick one entry at random (choice index `k`). -/
def get_text_starter (model : Model) (ss k : Nat) : Except String String :=
  match pickStarterList model ss with
  | .error e => .error e
  | .ok sv =>
    match chooseWith k sv with
    | none => .error chooseStarterFailMsg
    | some s => .ok s

def invalidMaxWordsMsg : String := "Max words must be greater than 0"

def noWordsMsg : String := "No words available for current state"

/-- The generation loop of `generate_text`: at loop index `i`, slice the
last `state_size` output tokens (`output_vec.get(i-state_size..i)`), look
the joined state up in the model, and either append a randomly chosen
successor (choice index `seed i`), fail when the stored list is empty, or
stop with the output so far when the state is absent. -/
def genLoop (model : Model) (ss : Nat) (seed : Nat → Nat) :
    List Nat → List String → Except String (List String)
  | [], out => .ok out
  | i :: is, out =>
    match sliceGet out (i - ss) i with
    | none => .error sliceErrMsg
    | some prev =>
      match Model.find model (joinSpace prev) with
      | some words =>
        match chooseWith (seed i) words with
        | none => .error noWordsMsg
        | some w => genLoop model ss seed is (out ++ [w])
      | none => .ok out

/-- `generate_text` up to the final join: validate `max_words`, choose a
starter (choice index `k0`), seed the output with the starter split on
single spaces, then run the loop for indices `state_size..max_words`. -/
def generate_text_vec (model : Model) (ss mw k0 : Nat) (seed : Nat → Nat) :
    Except String (List String) :=
  if mw = 0 then .error invalidMaxWordsMsg
  else
    match get_text_starter model ss k0 with
    | .error e => .error e
    | .ok starter =>
      genLoop model ss seed (List.range' ss (mw - ss)) (splitSpaceTokens starter)

/-- `generate_text` of the source: the generated tokens joined with single
spaces. -/
def generate_text (model : Model) (ss mw k0 : Nat) (seed : Nat → Nat) :
    Except String String :=
  (generate_text_vec model ss mw k0 seed).map (fun out => joinSpace out)

/-- The builder's window key at index `i`: the space-join of the
`state_size` tokens before position `i`. -/
def stateKey (tv : List String) (ss i : Nat) : String :=
  joinSpace ((tv.drop (i - ss)).take ss)

/-- The (key, successor) pairs the builder inserts, in insertion order. -/
def buildPairs (tv : List String) (ss : Nat) : List (String × String) :=
  (List.range' ss (tv.length - ss)).map (fun i => (stateKey tv ss i, tv.getD i ""))

/-- The successors recorded for key `k` by a run of the builder: the window
tokens at every position whose window key is `k`, in order. -/
def buildSuccessors (tv : List String) (ss : Nat) (k : String) : List String :=
  ((buildPairs tv ss).filter (fun p => p.1 = k)).map Prod.snd

/-- Folding the builder step over a list of (key, successor) pairs. -/
def insertAll (m : Model) (ps : List (String × String)) : Model :=
  ps.foldl (fun acc p => modelAppend acc p.1 p.2) m

/-- The walk property of a generated output: every token at a position `j ≥
state_size` is a recorded successor of the space-join of the `state_size`
tokens immediately before it. -/
def walkOk (model : Model) (ss : Nat) (out : List String) : Prop :=
  ∀ j (hj : j < out.length), ss ≤ j →
    ∃ succs, Model.find model (joinSpace ((out.drop (j - ss)).take ss)) = some succs
      ∧ out.get ⟨j, hj⟩ ∈ succs

/-! ### Lemmas on the character-level splitters -/

theorem splitChars_ne_nil (p : Char → Bool) (l : List Char) : splitChars p l ≠ [] := by
  induction l with
  | nil => simp [splitChars]
  | cons c cs ih =>
    simp only [splitChars]
    split
    · simp
    · split <;> simp

theorem splitChars_pos (p : Char → Bool) (c : Char) (l : List Char) (hc : p c = true) :
    splitChars p (c :: l) = [] :: splitChars p l := by
  simp [splitChars, hc]

theorem splitChars_neg (p : Char → Bool) (c : Char) (l : List Char) (hc : p c = false)
    (x : List Char) (xs : List (List Char)) (h : splitChars p l = x :: xs) :
    splitChars p (c :: l) = (c :: x) :: xs := by
  simp [splitChars, hc, h]

theorem splitChars_word (p : Char → Bool) :
    ∀ (w l : List Char), (∀ c ∈ w, p c = false) →
      ∀ x xs, splitChars p l = x :: xs → splitChars p (w ++ l) = (w ++ x) :: xs := by
  intro w
  induction w with
  | nil =>
    intro l _ x xs h
    simpa using h
  | cons c w ih =>
    intro l hw x xs h
    have hc : p c = false := hw c (by simp)
    have h' := ih l (fun d hd => hw d (by simp [hd])) x xs h
    simpa using splitChars_neg p c (w ++ l) hc (w ++ x) xs h'

theorem splitChars_sepJoin (p : Char → Bool) (hsep : p ' ' = true) :
    ∀ (ls : List (List Char)), (∀ w ∈ ls, ∀ c ∈ w, p c = false) →
      splitChars p (ls.flatMap (fun x => ' ' :: x)) = [] :: ls := by
  intro ls
  induction ls with
  | nil => intro _; simp [splitChars]
  | cons w ls ih =>
    intro h
    have h1 : splitChars p (ls.flatMap (fun x => ' ' :: x)) = [] :: ls :=
      ih (fun w' hw' => h w' (by simp [hw']))
    have h2 := splitChars_word p w _ (h w (by simp)) [] ls h1
    have h3 : splitChars p (' ' :: (w ++ ls.flatMap (fun x => ' ' :: x)))
        = [] :: (w ++ []) :: ls := by
      rw [splitChars_pos p ' ' _ hsep, h2]
    simpa using h3

theorem splitChars_joinSpaceChars (p : Char → Bool) (hsep : p ' ' = true)
    (l : List Char) (ls : List (List Char))
    (h : ∀ w ∈ l :: ls, ∀ c ∈ w, p c = false) :
    splitChars p (joinSpaceChars (l :: ls)) = l :: ls := by
  have h1 := splitChars_sepJoin p hsep ls (fun w hw => h w (by simp [hw]))
  have h2 := splitChars_word p l _ (h l (by simp)) [] ls h1
  simpa [joinSpaceChars] using h2

theorem joinSpace_data (ts : List String) :
    (joinSpace ts).data = joinSpaceChars (ts.map String.data) := rfl

theorem mk_data (s : String) : String.mk s.data = s := by cases s; rfl

theorem split_whitespace_joinSpace (ts : List String) (hne : ts ≠ [])
    (h : ∀ t ∈ ts, t.data ≠ [] ∧ ∀ c ∈ t.data, c.isWhitespace = false) :
    split_whitespace (joinSpace ts) = ts := by
  cases ts with
  | nil => exact absurd rfl hne
  | cons t ts =>
    have hfree : ∀ w ∈ t.data :: ts.map String.data, ∀ c ∈ w, Char.isWhitespace c = false := by
      intro w hw c hc
      rcases List.mem_cons.mp hw with h1 | h1
      · exact (h t (by simp)).2 c (h1 ▸ hc)
      · rcases List.mem_map.mp h1 with ⟨s, hs, rfl⟩
        exact (h s (by simp [hs])).2 c hc
    have hchars : splitChars Char.isWhitespace (joinSpaceChars ((t :: ts).map String.data))
        = (t :: ts).map String.data := by
      simpa using splitChars_joinSpaceChars Char.isWhitespace rfl t.data (ts.map String.data) hfree
    have hfil : ((t :: ts).map String.data).filter (fun w => w ≠ []) = (t :: ts).map String.data := by
      rw [List.filter_eq_self]
      intro a ha
      rcases List.mem_map.mp ha with ⟨s, hs, rfl⟩
      simpa using (h s hs).1
    have hmk : ((t :: ts).map String.data).map String.mk = t :: ts := by
      rw [List.map_map]
      have hpt : ∀ s ∈ t :: ts, (String.mk ∘ String.data) s = id s := by
        intro s _
        simp [Function.comp, mk_data]
      rw [List.map_congr_left hpt, List.map_id]
    unfold split_whitespace
    rw [joinSpace_data, hchars, hfil, hmk]

/-! ### Lemmas on the model (association-list) operations -/

theorem find_append (m m' : Model) (k : String) :
    Model.find (m ++ m') k =
      match Model.find m k with
      | some v => some v
      | none => Model.find m' k := by
  induction m with
  | nil => simp [Model.find]
  | cons kv rest ih =>
    by_cases h : kv.1 = k
    · simp [Model.find, h]
    · simpa [Model.find, h] using ih

theorem find_eq_none_iff (m : Model) (k : String) :
    Model.find m k = none ↔ k ∉ m.map Prod.fst := by
  induction m with
  | nil => simp [Model.find]
  | cons kv rest ih =>
    by_cases h : kv.1 = k
    · simp [Model.find, h]
    · rw [Model.find, if_neg h, ih]
      constructor
      · intro h1
        simp only [List.map_cons, List.mem_cons]
        push_neg
        exact ⟨fun hh => h hh.symm, h1⟩
      · intro h1
        simp only [List.map_cons, List.mem_cons] at h1
        push_neg at h1
        exact h1.2

theorem find_map_push (m : Model) (k v : String) (l : List String)
    (h : Model.find m k = some l) :
    Model.find (m.map (fun kv => if kv.1 = k then (kv.1, kv.2 ++ [v]) else kv)) k
      = some (l ++ [v]) := by
  induction m with
  | nil => simp [Model.find] at h
  | cons kv rest ih =>
    by_cases hk : kv.1 = k
    · simp only [Model.find, hk, if_true, Option.some.injEq] at h
      simp [Model.find, hk, h]
    · simp only [Model.find, hk, if_false] at h
      simpa [Model.find, hk] using ih h

theorem find_map_push_ne (m : Model) (k v k' : String) (h : k' ≠ k) :
    Model.find (m.map (fun kv => if kv.1 = k then (kv.1, kv.2 ++ [v]) else kv)) k'
      = Model.find m k' := by
  induction m with
  | nil => simp [Model.find]
  | cons kv rest ih =>
    by_cases hk : kv.1 = k
    · have hk' : ¬ kv.1 = k' := by rw [hk]; exact fun hh => h hh.symm
      simp [Model.find, hk, hk', ih, Ne.symm h]
    · by_cases hk' : kv.1 = k'
      · simp [Model.find, hk, hk', h]
      · simp [Model.find, hk, hk', ih]

theorem find_modelAppend_self (m : Model) (k v : String) :
    Model.find (modelAppend m k v) k = some ((Model.find m k).getD [] ++ [v]) := by
  unfold modelAppend
  cases h : Model.find m k with
  | some l => simpa [h] using find_map_push m k v l h
  | none =>
    rw [if_neg (by simp [h])]
    rw [find_append, h]
    simp [Model.find]

theorem find_modelAppend_ne (m : Model) (k v k' : String) (h : k' ≠ k) :
    Model.find (modelAppend m k v) k' = Model.find m k' := by
  unfold modelAppend
  split
  · exact find_map_push_ne m k v k' h
  · rw [find_append]
    cases hf : Model.find m k' with
    | some l => simp
    | none => simp [Model.find, Ne.symm h]

theorem find_mem (m : Model) (k : String) (v : List String)
    (h : Model.find m k = some v) : (k, v) ∈ m := by
  induction m with
  | nil => simp [Model.find] at h
  | cons kv rest ih =>
    by_cases hk : kv.1 = k
    · simp only [Model.find, hk, if_true, Option.some.injEq] at h
      exact List.mem_cons.mpr (.inl (by rw [← hk, ← h]))
    · simp only [Model.find, hk, if_false] at h
      exact List.mem_cons.mpr (.inr (ih h))

theorem chooseWith_nil (k : Nat) : chooseWith k ([] : List α) = none := rfl

theorem chooseWith_some (k : Nat) (l : List α) (h : l ≠ []) :
    ∃ x, chooseWith k l = some x ∧ x ∈ l := by
  have hl : 0 < l.length := List.length_pos.mpr h
  have hm : k % l.length < l.length := Nat.mod_lt _ hl
  exact ⟨l.get ⟨k % l.length, hm⟩, by simp [chooseWith, List.getElem?_eq_getElem hm],
    List.get_mem _ _ _⟩

theorem chooseWith_mem (k : Nat) (l : List α) (x : α) (h : chooseWith k l = some x) :
    x ∈ l :=
  List.getElem?_mem h

/-! ### Lemmas on the builder -/

theorem insertAll_cons (m : Model) (p : String × String) (ps : List (String × String)) :
    insertAll m (p :: ps) = insertAll (modelAppend m p.1 p.2) ps := rfl

theorem insertAll_find_some (ps : List (String × String)) :
    ∀ (m : Model) (k : String) (l : List String), Model.find m k = some l →
      Model.find (insertAll m ps) k
        = some (l ++ (ps.filter (fun p => p.1 = k)).map Prod.snd) := by
  induction ps with
  | nil =>
    intro m k l h
    simpa [insertAll] using h
  | cons p ps ih =>
    intro m k l h
    rw [insertAll_cons]
    by_cases hp : p.1 = k
    · have h1 : Model.find (modelAppend m p.1 p.2) k = some (l ++ [p.2]) := by
        rw [hp, find_modelAppend_self, h]
        rfl
      rw [ih _ k (l ++ [p.2]) h1]
      simp [List.filter_cons, hp]
    · have h1 : Model.find (modelAppend m p.1 p.2) k = some l := by
        rw [find_modelAppend_ne m p.1 p.2 k (fun hh => hp hh.symm), h]
      rw [ih _ k l h1]
      simp [List.filter_cons, hp]

theorem insertAll_find_none (ps : List (String × String)) :
    ∀ (m : Model) (k : String), Model.find m k = none →
      Model.find (insertAll m ps) k =
        if (ps.filter (fun p => p.1 = k)) = [] then none
        else some ((ps.filter (fun p => p.1 = k)).map Prod.snd) := by
  induction ps with
  | nil =>
    intro m k h
    simpa [insertAll] using h
  | cons p ps ih =>
    intro m k h
    rw [insertAll_cons]
    by_cases hp : p.1 = k
    · have h1 : Model.find (modelAppend m p.1 p.2) k = some [p.2] := by
        rw [hp, find_modelAppend_self, h]
        rfl
      rw [insertAll_find_some ps _ k [p.2] h1]
      simp [List.filter_cons, hp]
    · have h1 : Model.find (modelAppend m p.1 p.2) k = none := by
        rw [find_modelAppend_ne m p.1 p.2 k (fun hh => hp hh.symm), h]
      have hfc : List.filter (fun q => decide (q.1 = k)) (p :: ps)
          = List.filter (fun q => decide (q.1 = k)) ps := by
        simp [List.filter_cons, hp]
      rw [ih _ k h1, hfc]

theorem insertAll_keys_nodup (ps : List (String × String)) :
    ∀ m : Model, (m.map Prod.fst).Nodup → ((insertAll m ps).map Prod.fst).Nodup := by
  induction ps with
  | nil =>
    intro m h
    simpa [insertAll] using h
  | cons p ps ih =>
    intro m h
    rw [insertAll_cons]
    apply ih
    unfold modelAppend
    split
    · rw [List.map_map]
      have hpt : ∀ kv ∈ m,
          (Prod.fst ∘ fun kv => if kv.1 = p.1 then (kv.1, kv.2 ++ [p.2]) else kv) kv
            = Prod.fst kv := by
        intro kv _
        by_cases hk : kv.1 = p.1 <;> simp [hk]
      rw [List.map_congr_left hpt]
      exact h
    · rename_i hnot
      have hnone : Model.find m p.1 = none := Option.not_isSome_iff_eq_none.mp hnot
      have hmem : p.1 ∉ m.map Prod.fst := (find_eq_none_iff m p.1).mp hnone
      rw [List.map_append]
      simp [List.nodup_append, h, hmem]

theorem insertAll_entries (P : String → Prop) :
    ∀ (ps : List (String × String)), (∀ p ∈ ps, P p.1) →
      ∀ m : Model, (∀ kv ∈ m, kv.2 ≠ [] ∧ P kv.1) →
      ∀ kv ∈ insertAll m ps, kv.2 ≠ [] ∧ P kv.1 := by
  intro ps
  induction ps with
  | nil =>
    intro _ m h
    simpa [insertAll] using h
  | cons p ps ih =>
    intro hps m h
    rw [insertAll_cons]
    apply ih (fun q hq => hps q (by simp [hq]))
    intro kv hkv
    unfold modelAppend at hkv
    split at hkv
    · rcases List.mem_map.mp hkv with ⟨kv₀, hk₀, rfl⟩
      by_cases hk : kv₀.1 = p.1
      · constructor
        · simp [hk]
        · have hpp : P p.1 := hps p (by simp)
          simpa [hk] using hpp
      · simpa [hk] using h kv₀ hk₀
    · rcases List.mem_append.mp hkv with hk | hk
      · exact h kv hk
      · have hkv' : kv = (p.1, [p.2]) := by simpa using hk
        subst hkv'
        exact ⟨by simp, hps p (by simp)⟩

theorem buildLoop_eq_insertAll (tv : List String) (ss : Nat) :
    ∀ (is : List Nat), (∀ i ∈ is, ss ≤ i ∧ i < tv.length) →
      ∀ m : Model, buildLoop tv ss is m =
        .ok (insertAll m (is.map (fun i => (stateKey tv ss i, tv.getD i "")))) := by
  intro is
  induction is with
  | nil =>
    intro _ m
    simp [buildLoop, insertAll]
  | cons i is ih =>
    intro h m
    obtain ⟨h1, h2⟩ := h i (by simp)
    have hslice : sliceGet tv (i - ss) i = some ((tv.drop (i - ss)).take ss) := by
      unfold sliceGet
      rw [if_pos ⟨Nat.sub_le i ss, Nat.le_of_lt h2⟩, Nat.sub_sub_self h1]
    have hidx : tv[i]? = some (tv.getD i "") := by
      rw [List.getElem?_eq_getElem h2, List.getD_eq_getElem tv "" h2]
    simp only [buildLoop, hslice, hidx]
    rw [ih (fun j hj => h j (by simp [hj])) (modelAppend m _ _)]
    rfl

theorem build_eq_ok (tv : List String) (ss : Nat) (h1 : 1 ≤ ss) (h2 : ss + 1 ≤ tv.length) :
    build tv ss = .ok (insertAll [] (buildPairs tv ss)) := by
  unfold build
  rw [if_neg (by omega), if_neg (by omega)]
  exact buildLoop_eq_insertAll tv ss _ (fun i hi => by
    rw [List.mem_range'_1] at hi
    exact ⟨hi.1, by omega⟩) []

/-! ### Lemmas on start-state selection -/

theorem starters_all_sub (model : Model) : ∀ s ∈ starters_all model, s ∈ model.map Prod.fst :=
  fun _ hs => List.mem_of_mem_filter hs

theorem pickStarterList_ok (model : Model) (ss : Nat) (h : model ≠ []) :
    ∃ sv, pickStarterList model ss = .ok sv ∧ sv ≠ [] ∧
      ∀ s ∈ sv, s ∈ model.map Prod.fst := by
  by_cases h0 : (starters_valid model ss).isEmpty
  · by_cases h1 : (starters_all model).isEmpty
    · cases model with
      | nil => exact absurd rfl h
      | cons kv rest =>
        have heq : pickStarterList (kv :: rest) ss = .ok [kv.1] := by
          unfold pickStarterList
          simp [h0, h1]
        exact ⟨[kv.1], heq, by simp, by simp⟩
    · have hne : starters_all model ≠ [] := by
        intro hh
        rw [hh] at h1
        simp at h1
      have heq : pickStarterList model ss = .ok (starters_all model) := by
        unfold pickStarterList
        simp [h0, h1]
      exact ⟨starters_all model, heq, hne, fun s hs => starters_all_sub model s hs⟩
  · have hne : starters_valid model ss ≠ [] := by
      intro hh
      rw [hh] at h0
      simp at h0
    have heq : pickStarterList model ss = .ok (starters_valid model ss) := by
      unfold pickStarterList
      simp [h0]
    exact ⟨starters_valid model ss, heq, hne,
      fun s hs => starters_all_sub model s (List.mem_of_mem_filter hs)⟩

theorem get_text_starter_nil (ss k : Nat) :
    get_text_starter ([] : Model) ss k = .error emptyModelMsg := rfl

theorem get_text_starter_eq (model : Model) (ss k : Nat) (sv : List String)
    (hsv : pickStarterList model ss = .ok sv) :
    get_text_starter model ss k =
      match chooseWith k sv with
      | none => .error chooseStarterFailMsg
      | some s => .ok s := by
  unfold get_text_starter
  rw [hsv]

theorem get_text_starter_ok (model : Model) (ss k : Nat) (h : model ≠ []) :
    ∃ s, get_text_starter model ss k = .ok s ∧ s ∈ model.map Prod.fst := by
  obtain ⟨sv, hsv, hne, hsub⟩ := pickStarterList_ok model ss h
  obtain ⟨x, hx, hmem⟩ := chooseWith_some k sv hne
  refine ⟨x, ?_, hsub x hmem⟩
  rw [get_text_starter_eq model ss k sv hsv, hx]

theorem get_text_starter_error (model : Model) (ss k : Nat) (e : String)
    (h : get_text_starter model ss k = .error e) : e = emptyModelMsg ∧ model = [] := by
  cases model with
  | nil =>
    rw [get_text_starter_nil] at h
    injection h with h'
    exact ⟨h'.symm, rfl⟩
  | cons kv rest =>
    exfalso
    obtain ⟨s, hs, _⟩ := get_text_starter_ok (kv :: rest) ss k (by simp)
    rw [hs] at h
    exact Except.noConfusion h

theorem get_text_starter_mem (model : Model) (ss k : Nat) (s : String)
    (h : get_text_starter model ss k = .ok s) : s ∈ model.map Prod.fst := by
  cases model with
  | nil =>
    rw [get_text_starter_nil] at h
    exact Except.noConfusion h
  | cons kv rest =>
    obtain ⟨sv, hsv, hne, hsub⟩ := pickStarterList_ok (kv :: rest) ss (by simp)
    rw [get_text_starter_eq (kv :: rest) ss k sv hsv] at h
    cases hc : chooseWith k sv with
    | none =>
      rw [hc] at h
      exact Except.noConfusion h
    | some x =>
      rw [hc] at h
      injection h with hx
      exact hsub s (hx ▸ chooseWith_mem k sv x hc)

/-! ### Lemmas on the generation loop -/

theorem genLoop_cons_found (model : Model) (ss : Nat) (seed : Nat → Nat)
    (i : Nat) (is : List Nat) (out prev : List String) (words : List String)
    (hs : sliceGet out (i - ss) i = some prev)
    (hf : Model.find model (joinSpace prev) = some words) :
    genLoop model ss seed (i :: is) out =
      match chooseWith (seed i) words with
      | none => .error noWordsMsg
      | some w => genLoop model ss seed is (out ++ [w]) := by
  simp only [genLoop, hs, hf]

theorem genLoop_cons_dead (model : Model) (ss : Nat) (seed : Nat → Nat)
    (i : Nat) (is : List Nat) (out prev : List String)
    (hs : sliceGet out (i - ss) i = some prev)
    (hf : Model.find model (joinSpace prev) = none) :
    genLoop model ss seed (i :: is) out = .ok out := by
  simp only [genLoop, hs, hf]

theorem genLoop_cons_sliceerr (model : Model) (ss : Nat) (seed : Nat → Nat)
    (i : Nat) (is : List Nat) (out : List String)
    (hs : sliceGet out (i - ss) i = none) :
    genLoop model ss seed (i :: is) out = .error sliceErrMsg := by
  simp only [genLoop, hs]

theorem genLoop_ok_extends (model : Model) (ss : Nat) (seed : Nat → Nat) :
    ∀ (is : List Nat) (out res : List String),
      genLoop model ss seed is out = .ok res →
      ∃ t, res = out ++ t ∧ t.length ≤ is.length := by
  intro is
  induction is with
  | nil =>
    intro out res h
    simp only [genLoop, Except.ok.injEq] at h
    exact ⟨[], by simp [h], by simp⟩
  | cons i is ih =>
    intro out res h
    cases hs : sliceGet out (i - ss) i with
    | none =>
      rw [genLoop_cons_sliceerr model ss seed i is out hs] at h
      exact Except.noConfusion h
    | some prev =>
      cases hf : Model.find model (joinSpace prev) with
      | none =>
        rw [genLoop_cons_dead model ss seed i is out prev hs hf] at h
        injection h with h'
        exact ⟨[], by simp [← h'], by simp⟩
      | some words =>
        rw [genLoop_cons_found model ss seed i is out prev words hs hf] at h
        cases hc : chooseWith (seed i) words with
        | none =>
          rw [hc] at h
          exact Except.noConfusion h
        | some w =>
          rw [hc] at h
          obtain ⟨t, ht, hlen⟩ := ih (out ++ [w]) res h
          exact ⟨w :: t, by simp [ht], by simpa using Nat.succ_le_succ hlen⟩

theorem genLoop_range_ok (model : Model) (ss : Nat) (seed : Nat → Nat)
    (hne : ∀ kv ∈ model, kv.2 ≠ []) :
    ∀ (n i₀ : Nat) (out : List String), i₀ ≤ out.length →
      ∃ res, genLoop model ss seed (List.range' i₀ n) out = .ok res := by
  intro n
  induction n with
  | zero =>
    intro i₀ out _
    exact ⟨out, rfl⟩
  | succ n ih =>
    intro i₀ out hlen
    rw [List.range'_succ]
    have hslice : sliceGet out (i₀ - ss) i₀
        = some ((out.drop (i₀ - ss)).take (i₀ - (i₀ - ss))) := by
      unfold sliceGet
      rw [if_pos ⟨Nat.sub_le _ _, hlen⟩]
    cases hf : Model.find model
        (joinSpace ((out.drop (i₀ - ss)).take (i₀ - (i₀ - ss)))) with
    | none =>
      exact ⟨out, by rw [genLoop_cons_dead model ss seed i₀ _ out _ hslice hf]⟩
    | some words =>
      have hw : words ≠ [] := hne _ (find_mem model _ words hf)
      obtain ⟨w, hc, _⟩ := chooseWith_some (seed i₀) words hw
      obtain ⟨res, hres⟩ := ih (i₀ + 1) (out ++ [w]) (by simp; omega)
      refine ⟨res, ?_⟩
      rw [genLoop_cons_found model ss seed i₀ _ out _ words hslice hf, hc]
      exact hres

theorem slice_take_append (A : List String) (w : String) (n k : Nat)
    (h : n + k ≤ A.length) :
    ((A ++ [w]).drop n).take k = (A.drop n).take k := by
  rw [List.drop_append_of_le_length (by omega)]
  rw [List.take_append_of_le_length (by simp [List.length_drop]; omega)]

theorem walkOk_append (model : Model) (ss : Nat) (out : List String) (w : String)
    (hss : ss ≤ out.length)
    (hwalk : walkOk model ss out)
    (succs : List String)
    (hfind : Model.find model (joinSpace ((out.drop (out.length - ss)).take ss)) = some succs)
    (hw : w ∈ succs) :
    walkOk model ss (out ++ [w]) := by
  intro j hj hssj
  have hj1 : j < out.length + 1 := by simpa using hj
  by_cases hcase : j < out.length
  · obtain ⟨succs', hf', hm'⟩ := hwalk j hcase hssj
    refine ⟨succs', ?_, ?_⟩
    · rw [slice_take_append out w (j - ss) ss (by omega)]
      exact hf'
    · have hge : (out ++ [w]).get ⟨j, hj⟩ = out.get ⟨j, hcase⟩ := by
        rw [List.get_eq_getElem, List.get_eq_getElem]
        exact List.getElem_append_left hcase
      rw [hge]
      exact hm'
  · have hj' : j = out.length := by omega
    subst hj'
    refine ⟨succs, ?_, ?_⟩
    · rw [slice_take_append out w (out.length - ss) ss (by omega)]
      exact hfind
    · have hge : (out ++ [w]).get ⟨out.length, hj⟩ = w := by
        rw [List.get_eq_getElem]
        exact List.getElem_concat_length out w out.length rfl hj
      rw [hge]
      exact hw

theorem genLoop_walk (model : Model) (ss : Nat) (seed : Nat → Nat) :
    ∀ (n i₀ : Nat) (out res : List String),
      out.length = i₀ → ss ≤ i₀ → walkOk model ss out →
      genLoop model ss seed (List.range' i₀ n) out = .ok res →
      walkOk model ss res := by
  intro n
  induction n with
  | zero =>
    intro i₀ out res _ _ hwalk h
    have hout : out = res := by
      simpa [List.range'_zero, genLoop, Except.ok.injEq] using h
    exact hout ▸ hwalk
  | succ n ih =>
    intro i₀ out res hlen hss hwalk h
    rw [List.range'_succ] at h
    have hslice : sliceGet out (i₀ - ss) i₀
        = some ((out.drop (i₀ - ss)).take ss) := by
      unfold sliceGet
      rw [if_pos ⟨Nat.sub_le _ _, by omega⟩, Nat.sub_sub_self hss]
    cases hf : Model.find model (joinSpace ((out.drop (i₀ - ss)).take ss)) with
    | none =>
      rw [genLoop_cons_dead model ss seed i₀ _ out _ hslice hf] at h
      injection h with h'
      exact h' ▸ hwalk
    | some words =>
      rw [genLoop_cons_found model ss seed i₀ _ out _ words hslice hf] at h
      cases hc : chooseWith (seed i₀) words with
      | none =>
        rw [hc] at h
        exact Except.noConfusion h
      | some w =>
        rw [hc] at h
        have hmem : w ∈ words := chooseWith_mem (seed i₀) words w hc
        have hfind' : Model.find model
            (joinSpace ((out.drop (out.length - ss)).take ss)) = some words := by
          rw [hlen]
          exact hf
        have hwalk' := walkOk_append model ss out w (by omega) hwalk words hfind' hmem
        exact ih (i₀ + 1) (out ++ [w]) res (by simp [hlen]) (by omega) hwalk' h

/-! ### Lemmas on `generate_text_vec` -/

theorem generate_text_vec_eq (model : Model) (ss mw k0 : Nat) (seed : Nat → Nat)
    (starter : String) (hmw : mw ≠ 0)
    (hst : get_text_starter model ss k0 = .ok starter) :
    generate_text_vec model ss mw k0 seed
      = genLoop model ss seed (List.range' ss (mw - ss)) (splitSpaceTokens starter) := by
  unfold generate_text_vec
  rw [if_neg hmw, hst]

theorem generate_text_vec_starter_error (model : Model) (ss mw k0 : Nat)
    (seed : Nat → Nat) (e : String) (hmw : mw ≠ 0)
    (hst : get_text_starter model ss k0 = .error e) :
    generate_text_vec model ss mw k0 seed = .error e := by
  unfold generate_text_vec
  rw [if_neg hmw, hst]

theorem generate_text_vec_ok_elim (model : Model) (ss mw k0 : Nat) (seed : Nat → Nat)
    (out : List String)
    (h : generate_text_vec model ss mw k0 seed = .ok out) :
    mw ≠ 0 ∧ ∃ starter, get_text_starter model ss k0 = .ok starter ∧
      genLoop model ss seed (List.range' ss (mw - ss)) (splitSpaceTokens starter)
        = .ok out := by
  by_cases hmw : mw = 0
  · unfold generate_text_vec at h
    rw [if_pos hmw] at h
    exact Except.noConfusion h
  · refine ⟨hmw, ?_⟩
    cases hst : get_text_starter model ss k0 with
    | error e =>
      rw [generate_text_vec_starter_error model ss mw k0 seed e hmw hst] at h
      exact Except.noConfusion h
    | ok starter =>
      refine ⟨starter, rfl, ?_⟩
      rw [← generate_text_vec_eq model ss mw k0 seed starter hmw hst]
      exact h

theorem isEmpty_false_of_ne_nil (l : List α) (h : l ≠ []) : l.isEmpty = false := by
  cases l with
  | nil => exact absurd rfl h
  | cons a as => rfl

/-! ### Claim theorems -/

/-- Claim C1: for every token sequence with at least `state_size + 1` tokens and
every `state_size ≥ 1`, `build` returns a model whose lookup at any key `k` is
exactly the ordered list of window tokens at the positions whose window key
equals `k` (absent when there is no such position, created on first occurrence),
with duplicate-free keys — the model records the window appends and nothing
else. -/
theorem c1_build_characterization (tv : List String) (ss : Nat)
    (h1 : 1 ≤ ss) (h2 : ss + 1 ≤ tv.length) :
    ∃ M, build tv ss = .ok M
      ∧ (∀ k, Model.find M k =
          if buildSuccessors tv ss k = [] then none
          else some (buildSuccessors tv ss k))
      ∧ (M.map Prod.fst).Nodup := by
  refine ⟨insertAll [] (buildPairs tv ss), build_eq_ok tv ss h1 h2, ?_, ?_⟩
  · intro k
    rw [insertAll_find_none (buildPairs tv ss) [] k rfl]
    unfold buildSuccessors
    by_cases hc : (buildPairs tv ss).filter (fun p => p.1 = k) = []
    · rw [if_pos hc, hc]
      simp
    · rw [if_neg hc, if_neg (by simpa [List.map_eq_nil_iff] using hc)]
  · exact insertAll_keys_nodup (buildPairs tv ss) [] (by simp)

/-- Witness for C1 at the concrete corpus `["a", "b", "a", "c"]`, state size 1. -/
theorem c1_build_characterization_witness :
    ∃ M, build ["a", "b", "a", "c"] 1 = .ok M
      ∧ (∀ k, Model.find M k =
          if buildSuccessors ["a", "b", "a", "c"] 1 k = [] then none
          else some (buildSuccessors ["a", "b", "a", "c"] 1 k))
      ∧ (M.map Prod.fst).Nodup :=
  c1_build_characterization ["a", "b", "a", "c"] 1 (by decide) (by decide)

/-- Counterexample to claim C2: on the model `{"A B": ["c"]}` with
`state_size = 2` and `max_words = 1`, generation succeeds with the two-token
starter, so the output has more than `max_words` tokens. -/
theorem c2_counterexample :
    generate_text_vec [("A B", ["c"])] 2 1 0 (fun _ => 0) = .ok ["A", "B"]
      ∧ ¬ ((["A", "B"] : List String).length ≤ 1) := ⟨rfl, by decide⟩

/-- Claim C2 (amended): for a non-empty model whose keys split on single
spaces into exactly `state_size` tokens and `max_words ≥ 1`, any successful
output of the generator has between `state_size` and
`max state_size max_words` tokens; the `max_words` upper bound as claimed
holds only when `max_words ≥ state_size`. -/
theorem c2_amended_length_bounds (model : Model) (ss mw k0 : Nat)
    (seed : Nat → Nat) (out : List String)
    (hne : model ≠ []) (hmw : 1 ≤ mw)
    (HK : ∀ kv ∈ model, (splitSpaceTokens kv.1).length = ss)
    (hok : generate_text_vec model ss mw k0 seed = .ok out) :
    ss ≤ out.length ∧ out.length ≤ max ss mw := by
  obtain ⟨hmw0, starter, hst, hloop⟩ :=
    generate_text_vec_ok_elim model ss mw k0 seed out hok
  have hsmem := get_text_starter_mem model ss k0 starter hst
  obtain ⟨kv, hkv, hfst⟩ := List.mem_map.mp hsmem
  have hslen : (splitSpaceTokens starter).length = ss := by
    rw [← hfst]
    exact HK kv hkv
  obtain ⟨t, ht, hlen⟩ := genLoop_ok_extends model ss seed _ _ out hloop
  have htlen : t.length ≤ mw - ss := by
    rwa [List.length_range'] at hlen
  rw [ht]
  constructor
  · simp [hslen]
  · rw [List.length_append, hslen]
    omega

/-- Witness for the amended C2 on a concrete model and run. -/
theorem c2_amended_length_bounds_witness :
    (2 : Nat) ≤ (["A", "b", "c"] : List String).length
      ∧ (["A", "b", "c"] : List String).length ≤ max 2 5 :=
  c2_amended_length_bounds [("A b", ["c"])] 2 5 0 (fun _ => 0) ["A", "b", "c"]
    (by decide) (by decide) (by decide) rfl

/-- Counterexample to claim C3: on the model `{"a": []}` — a present key with
an empty successor list — generation fails with an error instead of stopping
gracefully with the output produced so far. -/
theorem c3_counterexample :
    generate_text_vec [("a", [])] 1 2 0 (fun _ => 0) = .error noWordsMsg := rfl

/-- Claim C3 (amended): during generation, when the current state is absent
from the model the loop stops immediately and returns the output so far as a
success; but when the state is present with an empty successor list the loop
fails with the "No words available for current state" error. -/
theorem c3_amended_dead_end (model : Model) (ss : Nat) (seed : Nat → Nat)
    (i : Nat) (is : List Nat) (out prev : List String)
    (hs : sliceGet out (i - ss) i = some prev) :
    (Model.find model (joinSpace prev) = none →
      genLoop model ss seed (i :: is) out = .ok out)
    ∧ (Model.find model (joinSpace prev) = some [] →
      genLoop model ss seed (i :: is) out = .error noWordsMsg) := by
  constructor
  · intro h
    exact genLoop_cons_dead model ss seed i is out prev hs h
  · intro h
    rw [genLoop_cons_found model ss seed i is out prev [] hs h]
    rfl

/-- Witness for the amended C3: a dead end (absent state) returns the output
so far as a success. -/
theorem c3_amended_dead_end_witness :
    genLoop [("x", ["y"])] 1 (fun _ => 0) [1] ["a"] = .ok ["a"] :=
  (c3_amended_dead_end [("x", ["y"])] 1 (fun _ => 0) 1 [] ["a"] ["a"] rfl).1 rfl

/-- Claim C4: `get_text_starter` follows the exact fallback chain — draw
uniformly from the capital-letter states whose word at position
`state_size - 1` is not capitalized; else draw uniformly from all
capital-letter states; else return some valid key of a non-empty model; else
fail with the empty-model error. -/
theorem c4_starter_fallback_chain (model : Model) (ss k : Nat) (hss : 1 ≤ ss) :
    (starters_valid model ss ≠ [] →
      ∃ s, chooseWith k (starters_valid model ss) = some s
        ∧ get_text_starter model ss k = .ok s)
    ∧ (starters_valid model ss = [] → starters_all model ≠ [] →
      ∃ s, chooseWith k (starters_all model) = some s
        ∧ get_text_starter model ss k = .ok s)
    ∧ (starters_all model = [] → model ≠ [] →
      ∃ s, get_text_starter model ss k = .ok s ∧ s ∈ model.map Prod.fst)
    ∧ (model = [] → get_text_starter model ss k = .error emptyModelMsg) := by
  refine ⟨?_, ?_, ?_, ?_⟩
  · intro hv
    have hpick : pickStarterList model ss = .ok (starters_valid model ss) := by
      unfold pickStarterList
      simp [isEmpty_false_of_ne_nil _ hv]
    obtain ⟨s, hcs, _⟩ := chooseWith_some k (starters_valid model ss) hv
    exact ⟨s, hcs, by rw [get_text_starter_eq model ss k _ hpick, hcs]⟩
  · intro hv ha
    have hpick : pickStarterList model ss = .ok (starters_all model) := by
      unfold pickStarterList
      simp [hv, isEmpty_false_of_ne_nil _ ha]
    obtain ⟨s, hcs, _⟩ := chooseWith_some k (starters_all model) ha
    exact ⟨s, hcs, by rw [get_text_starter_eq model ss k _ hpick, hcs]⟩
  · intro ha hmne
    have hv : starters_valid model ss = [] := by
      unfold starters_valid
      rw [ha]
      rfl
    cases model with
    | nil => exact absurd rfl hmne
    | cons kv rest =>
      have hpick : pickStarterList (kv :: rest) ss = .ok [kv.1] := by
        unfold pickStarterList
        simp [hv, ha]
      refine ⟨kv.1, ?_, by simp⟩
      rw [get_text_starter_eq _ ss k _ hpick]
      simp [chooseWith, Nat.mod_one]
  · intro hm
    subst hm
    exact get_text_starter_nil ss k

/-- Witness for C4 on a model exercising the first fallback stage. -/
theorem c4_starter_fallback_chain_witness :
    get_text_starter [("A b", ["c"]), ("x", ["y"])] 2 0 = .ok "A b" := by
  obtain ⟨s, hcs, hg⟩ :=
    (c4_starter_fallback_chain [("A b", ["c"]), ("x", ["y"])] 2 0 (by decide)).1
      (by decide)
  have h2 : chooseWith 0 (starters_valid [("A b", ["c"]), ("x", ["y"])] 2)
      = some "A b" := by decide
  rw [h2] at hcs
  injection hcs with hcs'
  rw [← hcs'] at hg
  exact hg

/-- Claim C5: for every sequence of at least `state_size + 1` tokens (tokens
being non-empty and whitespace-free, per the data model) and `state_size ≥ 1`,
the built model has only non-empty successor lists, and every key splits on
whitespace into exactly `state_size` words. -/
theorem c5_build_invariants (tv : List String) (ss : Nat)
    (h1 : 1 ≤ ss) (h2 : ss + 1 ≤ tv.length)
    (htok : ∀ t ∈ tv, t.data ≠ [] ∧ ∀ c ∈ t.data, c.isWhitespace = false) :
    ∃ M, build tv ss = .ok M
      ∧ ∀ kv ∈ M, kv.2 ≠ [] ∧ (split_whitespace kv.1).length = ss := by
  refine ⟨insertAll [] (buildPairs tv ss), build_eq_ok tv ss h1 h2, ?_⟩
  refine insertAll_entries (fun key => (split_whitespace key).length = ss)
    (buildPairs tv ss) ?_ [] (by simp)
  intro p hp
  unfold buildPairs at hp
  rcases List.mem_map.mp hp with ⟨i, hi, rfl⟩
  rw [List.mem_range'_1] at hi
  have hwin : ((tv.drop (i - ss)).take ss).length = ss := by
    simp [List.length_take, List.length_drop]
    omega
  have hsub : ∀ t ∈ (tv.drop (i - ss)).take ss, t ∈ tv :=
    fun t ht => List.drop_subset _ tv (List.take_subset _ _ ht)
  have hne : (tv.drop (i - ss)).take ss ≠ [] := by
    intro hh
    rw [hh] at hwin
    simp at hwin
    omega
  show (split_whitespace (stateKey tv ss i)).length = ss
  unfold stateKey
  rw [split_whitespace_joinSpace _ hne (fun t ht => htok t (hsub t ht))]
  exact hwin

/-- Witness for C5 at the concrete corpus `["a", "b"]`, state size 1. -/
theorem c5_build_invariants_witness :
    ∃ M, build ["a", "b"] 1 = .ok M
      ∧ ∀ kv ∈ M, kv.2 ≠ [] ∧ (split_whitespace kv.1).length = 1 :=
  c5_build_invariants ["a", "b"] 1 (by decide) (by decide) (by decide)

/-- Claim C6: for every `state_size ≥ 1` and every input whose whitespace
tokenization yields fewer than `state_size + 1` tokens, the builder fails with
the insufficient-data error (and returns no model). -/
theorem c6_insufficient_data (input : String) (ss : Nat) (h1 : 1 ≤ ss)
    (h2 : (collectWords input).length < ss + 1) :
    generate_markov_chain input ss
      = .error (insufficientDataMsg (collectWords input).length ss) := by
  unfold generate_markov_chain build
  rw [if_neg (by omega), if_pos h2]

/-- Witness for C6: a 2-word input with state size 2 fails. -/
theorem c6_insufficient_data_witness :
    generate_markov_chain "a b" 2
      = .error (insufficientDataMsg (collectWords "a b").length 2) :=
  c6_insufficient_data "a b" 2 (by decide) (by decide)

/-- Claim C7: a zero configuration parameter is always rejected: building with
`state_size = 0` fails with the invalid-state-size error on every input, and
generating with `max_words = 0` fails with the invalid-max-words error on
every model, state size and randomness. -/
theorem c7_zero_config_rejected :
    (∀ input : String, generate_markov_chain input 0 = .error invalidStateSizeMsg)
    ∧ (∀ (model : Model) (ss k0 : Nat) (seed : Nat → Nat),
        generate_text_vec model ss 0 k0 seed = .error invalidMaxWordsMsg) := by
  constructor
  · intro input
    unfold generate_markov_chain build
    rw [if_pos rfl]
  · intro model ss k0 seed
    unfold generate_text_vec
    rw [if_pos rfl]

/-- Claim C8: for `state_size ≥ 1` and `max_words ≥ 1`, generating from a
model with zero entries fails with the empty-model error, and the empty-model
error (on the empty model) is the only error the start-state selection path
can produce. -/
theorem c8_empty_model (ss mw k0 : Nat) (seed : Nat → Nat)
    (h1 : 1 ≤ ss) (h2 : 1 ≤ mw) :
    generate_text_vec [] ss mw k0 seed = .error emptyModelMsg
    ∧ ∀ (model : Model) (k : Nat) (e : String),
        get_text_starter model ss k = .error e → e = emptyModelMsg ∧ model = [] := by
  constructor
  · exact generate_text_vec_starter_error [] ss mw k0 seed emptyModelMsg (by omega)
      (get_text_starter_nil ss k0)
  · intro model k e h
    exact get_text_starter_error model ss k e h

/-- Witness for C8 at state size 1, max words 1. -/
theorem c8_empty_model_witness :
    generate_text_vec [] 1 1 0 (fun _ => 0) = .error emptyModelMsg :=
  (c8_empty_model 1 1 0 (fun _ => 0) (by decide) (by decide)).1

/-- Claim C9: every successful output of the generator is a valid walk of the
model: the first `state_size` tokens are the split of some model key, and
every later token belongs to the successor list stored under the space-join of
the `state_size` tokens immediately preceding it. -/
theorem c9_output_is_walk (model : Model) (ss mw k0 : Nat) (seed : Nat → Nat)
    (out : List String)
    (HK : ∀ kv ∈ model, (splitSpaceTokens kv.1).length = ss)
    (hok : generate_text_vec model ss mw k0 seed = .ok out) :
    (∃ key ∈ model.map Prod.fst, out.take ss = splitSpaceTokens key)
    ∧ walkOk model ss out := by
  obtain ⟨hmw, starter, hst, hloop⟩ :=
    generate_text_vec_ok_elim model ss mw k0 seed out hok
  have hsmem := get_text_starter_mem model ss k0 starter hst
  obtain ⟨kv, hkv, hfst⟩ := List.mem_map.mp hsmem
  have hslen : (splitSpaceTokens starter).length = ss := by
    rw [← hfst]
    exact HK kv hkv
  have hwalk0 : walkOk model ss (splitSpaceTokens starter) := by
    intro j hj hssj
    rw [hslen] at hj
    exact absurd hssj (by omega)
  have hwalk := genLoop_walk model ss seed (mw - ss) ss (splitSpaceTokens starter)
    out hslen (le_refl ss) hwalk0 hloop
  refine ⟨⟨starter, hsmem, ?_⟩, hwalk⟩
  obtain ⟨t, ht, _⟩ := genLoop_ok_extends model ss seed _ _ out hloop
  rw [ht, List.take_append_of_le_length (le_of_eq hslen.symm), ← hslen,
    List.take_length]

/-- Witness for C9 on a concrete successful run. -/
theorem c9_output_is_walk_witness :
    (∃ key ∈ ([("A b", ["c"])] : Model).map Prod.fst,
        (["A", "b", "c"] : List String).take 2 = splitSpaceTokens key)
    ∧ walkOk [("A b", ["c"])] 2 ["A", "b", "c"] :=
  c9_output_is_walk [("A b", ["c"])] 2 3 0 (fun _ => 0) ["A", "b", "c"]
    (by decide) rfl

/-- Claim C10: for a non-empty model whose keys split into exactly
`state_size` tokens and whose successor lists are all non-empty, generation
with `max_words ≥ 1` always returns successfully — the slice error, the
empty-successor-list error and the starter-choice error are unreachable. -/
theorem c10_generation_total (model : Model) (ss mw k0 : Nat) (seed : Nat → Nat)
    (hne : model ≠ [])
    (HK : ∀ kv ∈ model, (splitSpaceTokens kv.1).length = ss)
    (HNE : ∀ kv ∈ model, kv.2 ≠ [])
    (hmw : 1 ≤ mw) :
    ∃ out, generate_text_vec model ss mw k0 seed = .ok out := by
  obtain ⟨starter, hst, hsmem⟩ := get_text_starter_ok model ss k0 hne
  obtain ⟨kv, hkv, hfst⟩ := List.mem_map.mp hsmem
  have hslen : (splitSpaceTokens starter).length = ss := by
    rw [← hfst]
    exact HK kv hkv
  obtain ⟨res, hres⟩ := genLoop_range_ok model ss seed HNE (mw - ss) ss
    (splitSpaceTokens starter) (le_of_eq hslen.symm)
  exact ⟨res, by
    rw [generate_text_vec_eq model ss mw k0 seed starter (by omega) hst]
    exact hres⟩

/-- Witness for C10 on a concrete model. -/
theorem c10_generation_total_witness :
    ∃ out, generate_text_vec [("A b", ["c"])] 2 3 0 (fun _ => 0) = .ok out :=
  c10_generation_total [("A b", ["c"])] 2 3 0 (fun _ => 0) (by decide) (by decide)
    (by decide) (by decide)

end MarkovText
